import Mathlib

/-!
Verification of the zap-ecs structured log-field classification and
nested-object encoding engine (Go repository lggomez/zap-ecs).

The definitions below are a shallow embedding of the Go source:

* `Field` embeds `zap.Field` restricted to the slots the classifier and the
  HTTP encoder actually inspect: the key, the pre-rendered string slot
  (`field.String`) and the `Interface` slot (`field.Interface`), the latter
  modelled as an `Option Payload` where `none` is the nil interface.
* `Payload` is the tagged union of the dynamic types the code distinguishes
  with Go type assertions: a string list (`[]string`), a header-collection
  list (`[]http.Header`), and any other value, carried together with its
  Go `%v` rendering.
* Go's `strings.Split(key, ".")` is embedded as `goSplitDots`, Go's
  `strings.HasPrefix` as `hasPfx`, and Go's ASCII case folding used by
  `strings.ToLower` on the (all-ASCII) secret header names as `goToLower`.
* The failed type assertion `field.Interface.([]string)` in
  `encodeFields` aborts the call with a Go panic; the embedding returns
  `Except.error interfaceConversionPanic` there, and `Except.ok` models a
  log call that completes and returns to the caller.
* A Go `http.Header` (`map[string][]string`) is modelled as an association
  list `Header`; the in-place mutation `header[key] = []string{...}`
  performed by `SanitizeHeaders` is modelled by state passing: the Lean
  `SanitizeHeaders` returns the post-state of its argument together with
  the rendered strings the Go function returns.
-/

namespace ZapEcs

/-- Dynamic value stored in a field's `Interface` slot. `anyVal s` stands for
any Go value that is neither a `[]string` nor a `[]http.Header`, carrying its
`%v` rendering `s`. -/
inductive Payload where
  | strList : List String → Payload
  | headerList : List (List (String × List String)) → Payload
  | anyVal : String → Payload
deriving DecidableEq

/-- Whether this payload would satisfy the Go type assertion `.([]string)`. -/
def Payload.isStrList : Payload → Bool
  | Payload.strList _ => true
  | _ => false

/-- Embedding of `zap.Field`: key, pre-rendered string slot and interface slot. -/
structure Field where
  key : String
  str : String
  payload : Option Payload
deriving DecidableEq

/-- Embedding of one `http.Header` value (`map[string][]string`) as an
association list; the list order stands for the map iteration order. -/
abbrev Header := List (String × List String)

/-! Constants from `ecs/ecs_keys.go`. -/

def FieldLabels : String := "labels"
def FieldTags : String := "tags"

def FieldLabelApplication : String := "application"
def FieldLabelService : String := "service"
def FieldLabelEnvironment : String := "environment"
def FieldLabelLibVersion : String := "lib_version"
def FieldLabelLibLanguage : String := "lib_language"
def FieldLabelPodName : String := "pod_name"
def FieldLabelNodeName : String := "node_name"

def FieldLogger : String := "log.logger"
def FieldLogLevel : String := "log.level"

def FieldServiceName : String := "service.name"

def FieldErrorMessage : String := "error.message"
def FieldStackTrace : String := "error.stack_trace"
def FieldErrorType : String := "error.type"

def FieldEventAction : String := "event.action"
def FieldEventKind : String := "event.kind"
def FieldEventCategory : String := "event.category"
def FieldEventModule : String := "event.module"
def FieldEventType : String := "event.type"
def FieldEventOriginal : String := "event.original"
def FieldEventOutcome : String := "event.outcome"

def FieldTraceID : String := "trace.id"

def FieldHTTPRequestBodyContent : String := "http.request.body.content"
def FieldHTTPRequestMethod : String := "http.request.method"
def FieldHTTPRequestBodyHeaders : String := "http.request.body.headers"
def FieldHTTPRequestReferrer : String := "http.request.referrer"
def FieldHTTPResponseBodyContent : String := "http.response.body.content"
def FieldHTTPResponseStatusCode : String := "http.response.status_code"
def FieldHTTPResponseBodyReferrer : String := "http.response.body.referrer"

/-- The members of `ecsKeysMap` in `ecs/ecs_keys.go` (note: the source map
does not contain `FieldEventKind`). -/
def ecsKeysList : List String :=
  [FieldTags,
   FieldLogger, FieldLogLevel,
   FieldLabelApplication, FieldLabelService, FieldLabelEnvironment,
   FieldLabelLibVersion, FieldLabelLibLanguage, FieldLabelPodName,
   FieldLabelNodeName,
   FieldServiceName,
   FieldErrorMessage, FieldStackTrace, FieldErrorType,
   FieldEventAction, FieldEventCategory, FieldEventModule, FieldEventType,
   FieldEventOriginal, FieldEventOutcome,
   FieldTraceID,
   FieldHTTPRequestBodyContent, FieldHTTPRequestMethod,
   FieldHTTPRequestBodyHeaders, FieldHTTPRequestReferrer,
   FieldHTTPResponseBodyContent, FieldHTTPResponseStatusCode,
   FieldHTTPResponseBodyReferrer]

/-- Embedding of `ecs.IsECSFieldName` (map membership test). -/
def IsECSFieldName (fieldName : String) : Bool :=
  ecsKeysList.contains fieldName

/-- Recognized prefix constants from `ecs/ecs_keys.go` (`LogPrefix` etc.). -/
def LogPfx : String := "log."
def LogBaseLevelKey : String := "log"
def HTTPPfx : String := "http."
def HTTPBaseLevelKey : String := "http"
def EventPfx : String := "event."
def EventBaseLevelKey : String := "event"
def ErrorPfx : String := "error."
def ErrorBaseLevelKey : String := "error"
def TracePfx : String := "trace."
def TraceBaseLevelKey : String := "trace"

/-- Embedding of Go `strings.HasPrefix`. -/
def hasPfx (s pre : String) : Bool :=
  pre.toList.isPrefixOf s.toList

/-- Helper for `goSplitDots`: splits a character list at every dot,
accumulating the current (reversed) segment. -/
def splitOnDotAux : List Char → List Char → List (List Char)
  | [], acc => [acc.reverse]
  | c :: cs, acc =>
    if c = '.' then acc.reverse :: splitOnDotAux cs []
    else splitOnDotAux cs (c :: acc)

/-- Embedding of Go `strings.Split(s, ".")`. -/
def goSplitDots (s : String) : List String :=
  (splitOnDotAux s.toList []).map String.mk

/-- Embedding of the log levels of `level.go` / `zapcore.Level`. -/
inductive Level where
  | debugLvl | infoLvl | warnLvl | errorLvl | panicLvl | fatalLvl
deriving DecidableEq

/-- Rendering used by `a.l.String()` in `emitLogFields`. -/
def Level.toString : Level → String
  | Level.debugLvl => "debug"
  | Level.infoLvl => "info"
  | Level.warnLvl => "warn"
  | Level.errorLvl => "error"
  | Level.panicLvl => "panic"
  | Level.fatalLvl => "fatal"

/-- Embedding of `reduceKey` (logger.go): replace the key by the last element
of its dot-split token list. -/
def reduceKey (field : Field) : Field :=
  { field with key := (goSplitDots field.key).getLastD "" }

/-- Embedding of `fieldAccumulators` (logger.go). -/
structure fieldAccumulators where
  l : Level
  labelsFieldsAccum : List Field
  logFieldsAccum : List Field
  httpFieldsAccum : List Field
  eventFieldsAccum : List Field
  errorFieldsAccum : List Field
  traceFieldsAccum : List Field
deriving DecidableEq

/-- Embedding of `newFieldAccumulators`; the `labelsSize` capacity hint has no
observable effect and is kept only for signature fidelity. -/
def newFieldAccumulators (_labelsSize : Nat) (l : Level) : fieldAccumulators :=
  ⟨l, [], [], [], [], [], []⟩

/-- Embedding of `fieldAccumulators.appendField` (logger.go): route one field
to its bucket by testing the five recognized dotted prefixes in source order;
HTTP fields keep their full key, all other buckets store the reduced key. -/
def fieldAccumulators.appendField (a : fieldAccumulators) (f : Field) : fieldAccumulators :=
  if hasPfx f.key LogPfx then
    { a with logFieldsAccum := a.logFieldsAccum ++ [reduceKey f] }
  else if hasPfx f.key HTTPPfx then
    { a with httpFieldsAccum := a.httpFieldsAccum ++ [f] }
  else if hasPfx f.key EventPfx then
    { a with eventFieldsAccum := a.eventFieldsAccum ++ [reduceKey f] }
  else if hasPfx f.key ErrorPfx then
    { a with errorFieldsAccum := a.errorFieldsAccum ++ [reduceKey f] }
  else if hasPfx f.key TracePfx then
    { a with traceFieldsAccum := a.traceFieldsAccum ++ [reduceKey f] }
  else
    { a with labelsFieldsAccum := a.labelsFieldsAccum ++ [reduceKey f] }

/-- Shallow embedding of the final field list handed to the zap sink: the
`tags` multi-valued field (`zap.Strings`), base label fields passed through
verbatim, flat bucket objects (`zap.Object` over `objects.AsObject`) and the
HTTP bucket object (`objects.NestedObject(...).AsField()`). -/
inductive OutField where
  | strings : String → List String → OutField
  | plain : Field → OutField
  | obj : String → List Field → OutField
  | httpObj : String → List Field → OutField
deriving DecidableEq

/-- Top-level key of an output field. -/
def OutField.key : OutField → String
  | OutField.strings k _ => k
  | OutField.plain f => f.key
  | OutField.obj k _ => k
  | OutField.httpObj k _ => k

/-- Embedding of `fieldAccumulators.emitLogFields` (logger.go): append the
logger-identity field and the synthesized severity field to the log bucket,
then emit the six bucket objects in source order. -/
def fieldAccumulators.emitLogFields (a : fieldAccumulators) (baseLoggerField : Field) :
    List OutField :=
  let logAcc := a.logFieldsAccum ++
    [reduceKey baseLoggerField, reduceKey ⟨FieldLogLevel, a.l.toString, none⟩]
  [OutField.obj LogBaseLevelKey logAcc,
   OutField.httpObj HTTPBaseLevelKey a.httpFieldsAccum,
   OutField.obj EventBaseLevelKey a.eventFieldsAccum,
   OutField.obj ErrorBaseLevelKey a.errorFieldsAccum,
   OutField.obj TraceBaseLevelKey a.traceFieldsAccum,
   OutField.obj FieldLabels a.labelsFieldsAccum]

/-- Embedding of `zapECSLogger` (logger.go) restricted to its process-wide
configuration; the `*zap.Logger` sink handle carries no data relevant to
field encoding. -/
structure zapECSLogger where
  baseLoggerField : Field
  baseTags : List String
  baseLabels : List Field
deriving DecidableEq

/-- Message standing for the Go runtime panic raised by the failed type
assertion `field.Interface.([]string)` in `encodeFields`. -/
def interfaceConversionPanic : String :=
  "interface conversion: interface is not a string list"

/-- Embedding of the classification loop of `zapECSLogger.encodeFields`
(logger.go lines 133-155): skip keys already processed, record the key,
special-case the reserved `tags` key (nil interface skipped, `[]string`
payload appended to the tag set, any other payload panics), route every
other field through `appendField`. -/
def processFields : List Field → List String → List String → fieldAccumulators →
    Except String (List String × fieldAccumulators)
  | [], _, entryTags, accums => Except.ok (entryTags, accums)
  | field :: rest, processed, entryTags, accums =>
    if field.key ∈ processed then
      processFields rest processed entryTags accums
    else
      if IsECSFieldName field.key then
        if field.key = FieldTags then
          match field.payload with
          | none => processFields rest (field.key :: processed) entryTags accums
          | some (Payload.strList tags) =>
            processFields rest (field.key :: processed) (entryTags ++ tags) accums
          | some _ => Except.error interfaceConversionPanic
        else
          processFields rest (field.key :: processed) entryTags (accums.appendField field)
      else
        processFields rest (field.key :: processed) entryTags (accums.appendField field)

/-- Embedding of `zapECSLogger.encodeFields` (logger.go): run the
classification loop seeded with the base tags, then assemble the final field
list: the merged tags field when non-empty, the base labels verbatim, and the
bucket objects from `emitLogFields`. `Except.ok` models the log call
completing and returning to the caller; `Except.error` models a panic. -/
def zapECSLogger.encodeFields (l : zapECSLogger) (fields : List Field) (lvl : Level) :
    Except String (List OutField) :=
  match processFields fields [] l.baseTags (newFieldAccumulators l.baseLabels.length lvl) with
  | Except.error e => Except.error e
  | Except.ok (entryTags, accums) =>
    Except.ok ((if 0 < entryTags.length then [OutField.strings FieldTags entryTags] else [])
      ++ l.baseLabels.map OutField.plain
      ++ accums.emitLogFields l.baseLoggerField)

/-- Embedding of the `ecs.Tags` field constructor (`fields_ecs.go`):
a skip-typed field with the reserved tags key carrying the string list. -/
def Tags (val : List String) : Field :=
  ⟨FieldTags, "", some (Payload.strList val)⟩

/-! Embedding of `ecs/fields_ecs.go` header sanitization. -/

/-- The members of `secretEcsKeysMap` in `ecs/fields_ecs.go`. -/
def secretEcsKeysMap : List String :=
  ["x-authorization", "authorization", "cookie", "x-san-iatx-user-pass"]

/-- Placeholder substituted for secret header values. -/
def secretPlaceholderValue : String := "SECRET"

/-- ASCII lowering of one character, the fragment of Go `strings.ToLower`
relevant to the (all-ASCII) secret header names. -/
def charLower (c : Char) : Char :=
  if 'A' ≤ c ∧ c ≤ 'Z' then Char.ofNat (c.toNat + 32) else c

/-- Embedding of Go `strings.ToLower` restricted to ASCII case folding. -/
def goToLower (s : String) : String :=
  String.mk (s.toList.map charLower)

/-- Inner loop of `ecs.SanitizeHeaders` over one header map: overwrite the
value of every secret-named entry with the placeholder list (an in-place
mutation in the source, modelled here by returning the post-state), and
render each entry as `name=value` with values comma-joined. -/
def sanitizeHeaderEntries : Header → Header × List String
  | [] => ([], [])
  | (key, v) :: rest =>
    let v2 := if secretEcsKeysMap.contains (goToLower key) then [secretPlaceholderValue] else v
    let line := key ++ "=" ++ String.intercalate "," v2
    let r := sanitizeHeaderEntries rest
    ((key, v2) :: r.1, line :: r.2)

/-- Embedding of `ecs.SanitizeHeaders` (`fields_ecs.go`): the first component
is the post-state of the caller's header collection (the source mutates its
argument in place), the second is the returned `[]string` rendering. -/
def SanitizeHeaders : List Header → List Header × List String
  | [] => ([], [])
  | header :: rest =>
    let r := sanitizeHeaderEntries header
    let rs := SanitizeHeaders rest
    (r.1 :: rs.1, r.2 ++ rs.2)

/-! Embedding of `internal/objects/http_object.go` and `http_utils.go`. -/

/-- Embedding of `HTTPBodyMarshalObject`; Go string zero values are `""` and
every field carries the `omitempty` JSON tag. -/
structure HTTPBodyMarshalObject where
  BodyContent : String
  Headers : String
  StatusCode : String
deriving DecidableEq

/-- Embedding of `HTTPRequestMarshalObject`; the `Body` pointer is `Option`. -/
structure HTTPRequestMarshalObject where
  Body : Option HTTPBodyMarshalObject
  RequestMethod : String
  RequestReferrer : String
deriving DecidableEq

/-- Embedding of `HTTPResponseMarshalObject`. -/
structure HTTPResponseMarshalObject where
  Body : Option HTTPBodyMarshalObject
  ResponseReferrer : String
deriving DecidableEq

/-- Embedding of `HTTPMarshalObject`: optional request and response nodes. -/
structure HTTPMarshalObject where
  Request : Option HTTPRequestMarshalObject
  Response : Option HTTPResponseMarshalObject
deriving DecidableEq

/-- Embedding of `requestNilGuard` (`http_utils.go`): allocate the request
node and, unconditionally after that, its body node. -/
def requestNilGuard (object : HTTPMarshalObject) : HTTPMarshalObject :=
  let object :=
    match object.Request with
    | none => { object with Request := some ⟨none, "", ""⟩ }
    | some _ => object
  match object.Request with
  | some r =>
    match r.Body with
    | none => { object with Request := some { r with Body := some ⟨"", "", ""⟩ } }
    | some _ => object
  | none => object

/-- Embedding of `responseNilGuard` (`http_utils.go`). -/
def responseNilGuard (object : HTTPMarshalObject) : HTTPMarshalObject :=
  let object :=
    match object.Response with
    | none => { object with Response := some ⟨none, ""⟩ }
    | some _ => object
  match object.Response with
  | some r =>
    match r.Body with
    | none => { object with Response := some { r with Body := some ⟨"", "", ""⟩ } }
    | some _ => object
  | none => object

/-- Go `%v` rendering of a `[]string` value. -/
def goFormatStrings (l : List String) : String :=
  "[" ++ String.intercalate " " l ++ "]"

/-- Go `%v` rendering of a field's interface slot; a nil interface renders
as `<nil>`. -/
def goFormatValue : Option Payload → String
  | none => "<nil>"
  | some (Payload.strList l) => goFormatStrings l
  | some (Payload.headerList _) => ""
  | some (Payload.anyVal s) => s

/-- Embedding of `getValueAsString` (`http_utils.go`): prefer the
pre-rendered string slot; else, for a non-nil `[]http.Header` payload,
sanitize and render it; else fall back to the `%v` rendering. -/
def getValueAsString (field : Field) : String :=
  if field.str ≠ "" then field.str
  else
    match field.payload with
    | some (Payload.headerList hs) => goFormatStrings (SanitizeHeaders hs).2
    | p => goFormatValue p

/-- Functional update of the allocated request node (after `requestNilGuard`
the Go code assigns through the non-nil pointer). -/
def withRequest (o : HTTPMarshalObject)
    (g : HTTPRequestMarshalObject → HTTPRequestMarshalObject) : HTTPMarshalObject :=
  match o.Request with
  | some r => { o with Request := some (g r) }
  | none => o

/-- Functional update of the allocated request body node. -/
def withRequestBody (o : HTTPMarshalObject)
    (g : HTTPBodyMarshalObject → HTTPBodyMarshalObject) : HTTPMarshalObject :=
  withRequest o (fun r =>
    match r.Body with
    | some b => { r with Body := some (g b) }
    | none => r)

/-- Functional update of the allocated response node. -/
def withResponse (o : HTTPMarshalObject)
    (g : HTTPResponseMarshalObject → HTTPResponseMarshalObject) : HTTPMarshalObject :=
  match o.Response with
  | some r => { o with Response := some (g r) }
  | none => o

/-- Functional update of the allocated response body node. -/
def withResponseBody (o : HTTPMarshalObject)
    (g : HTTPBodyMarshalObject → HTTPBodyMarshalObject) : HTTPMarshalObject :=
  withResponse o (fun r =>
    match r.Body with
    | some b => { r with Body := some (g b) }
    | none => r)

/-- Embedding of `HTTPECSMapper` (`http_utils.go`): dispatch on the full
(non-reduced) key over the seven recognized HTTP field keys, run the nil
guard of the owning node, then assign the leaf; unrecognized keys are
ignored. -/
def HTTPECSMapper (field : Field) (object : HTTPMarshalObject) : HTTPMarshalObject :=
  if field.key = FieldHTTPRequestBodyContent then
    withRequestBody (requestNilGuard object) (fun b => { b with BodyContent := getValueAsString field })
  else if field.key = FieldHTTPRequestBodyHeaders then
    withRequestBody (requestNilGuard object) (fun b => { b with Headers := getValueAsString field })
  else if field.key = FieldHTTPRequestMethod then
    withRequest (requestNilGuard object) (fun r => { r with RequestMethod := getValueAsString field })
  else if field.key = FieldHTTPRequestReferrer then
    withRequest (requestNilGuard object) (fun r => { r with RequestReferrer := getValueAsString field })
  else if field.key = FieldHTTPResponseBodyContent then
    withResponseBody (responseNilGuard object) (fun b => { b with BodyContent := getValueAsString field })
  else if field.key = FieldHTTPResponseStatusCode then
    withResponseBody (responseNilGuard object) (fun b => { b with StatusCode := getValueAsString field })
  else if field.key = FieldHTTPResponseBodyReferrer then
    withResponse (responseNilGuard object) (fun r => { r with ResponseReferrer := getValueAsString field })
  else object

/-- Hexadecimal digit for JSON control-character escapes. -/
def hexDigit (n : Nat) : Char :=
  if n < 10 then Char.ofNat (48 + n) else Char.ofNat (87 + n)

/-- JSON escaping of one character (the jsoniter configuration used by the
source does not escape HTML). -/
def jsonEscapeChar (c : Char) : List Char :=
  if c = '"' then ['\\', '"']
  else if c = '\\' then ['\\', '\\']
  else if c = '\n' then ['\\', 'n']
  else if c = '\r' then ['\\', 'r']
  else if c = '\t' then ['\\', 't']
  else if c.toNat < 32 then
    ['\\', 'u', '0', '0', hexDigit (c.toNat / 16), hexDigit (c.toNat % 16)]
  else [c]

/-- JSON rendering of a string literal. -/
def jsonStr (s : String) : String :=
  "\"" ++ String.mk ((s.toList.map jsonEscapeChar).flatten) ++ "\""

/-- JSON serialization of the body node. Every leaf carries `omitempty`: an
empty string is omitted, so a body with no written leaves serializes as an
empty object. -/
def marshalBody (b : HTTPBodyMarshalObject) : String :=
  let fs := (if b.BodyContent ≠ "" then [jsonStr "content" ++ ":" ++ jsonStr b.BodyContent] else [])
    ++ (if b.Headers ≠ "" then [jsonStr "headers" ++ ":" ++ jsonStr b.Headers] else [])
    ++ (if b.StatusCode ≠ "" then [jsonStr "status_code" ++ ":" ++ jsonStr b.StatusCode] else [])
  "\x7b" ++ String.intercalate "," fs ++ "\x7d"

/-- JSON serialization of the request node; the `Body` pointer carries
`omitempty`, which omits a nil pointer but emits an allocated (non-nil)
body even when it has no written leaves. -/
def marshalRequest (r : HTTPRequestMarshalObject) : String :=
  let fs := (match r.Body with
      | some b => [jsonStr "body" ++ ":" ++ marshalBody b]
      | none => [])
    ++ (if r.RequestMethod ≠ "" then [jsonStr "method" ++ ":" ++ jsonStr r.RequestMethod] else [])
    ++ (if r.RequestReferrer ≠ "" then [jsonStr "referrer" ++ ":" ++ jsonStr r.RequestReferrer] else [])
  "\x7b" ++ String.intercalate "," fs ++ "\x7d"

/-- JSON serialization of the response node. -/
def marshalResponse (r : HTTPResponseMarshalObject) : String :=
  let fs := (match r.Body with
      | some b => [jsonStr "body" ++ ":" ++ marshalBody b]
      | none => [])
    ++ (if r.ResponseReferrer ≠ "" then [jsonStr "referrer" ++ ":" ++ jsonStr r.ResponseReferrer] else [])
  "\x7b" ++ String.intercalate "," fs ++ "\x7d"

/-- JSON serialization of the whole HTTP nested schema; unallocated request
and response nodes (nil pointers under `omitempty`) are omitted. -/
def marshalHTTPObject (o : HTTPMarshalObject) : String :=
  let fs := (match o.Request with
      | some r => [jsonStr "request" ++ ":" ++ marshalRequest r]
      | none => [])
    ++ (match o.Response with
      | some r => [jsonStr "response" ++ ":" ++ marshalResponse r]
      | none => [])
  "\x7b" ++ String.intercalate "," fs ++ "\x7d"

/-- Embedding of `HTTPObject.MarshalJSON` (`http_object.go`): run the mapper
over the accumulated HTTP-bucket fields starting from the zero object, then
serialize the result. -/
def HTTPObjectMarshalJSON (fields : List Field) : String :=
  marshalHTTPObject (fields.foldl (fun o f => HTTPECSMapper f o) ⟨none, none⟩)

/-! Specification-side comparison definitions, written from the spec's words
rather than the source, to state refinement claims against the code. -/

/-- Bucket identifiers of the classifier. -/
inductive BucketId where
  | log | http | event | error | trace | labels
deriving DecidableEq

/-- Modelled from the spec: the ordered table of the five recognized dotted
prefixes, in the stated priority order log, http, event, error, trace. -/
def prefixTable : List (String × BucketId) :=
  [(LogPfx, BucketId.log), (HTTPPfx, BucketId.http), (EventPfx, BucketId.event),
   (ErrorPfx, BucketId.error), (TracePfx, BucketId.trace)]

/-- Modelled from the spec: first matching prefix in the priority table
determines the bucket; no match routes to the generic/labels bucket. -/
def routeOf (key : String) : BucketId :=
  match prefixTable.find? (fun pb => hasPfx key pb.1) with
  | some pb => pb.2
  | none => BucketId.labels

/-- Characters of a key after its final dot (the whole list when it has no
dot): take from the right while no dot is seen. -/
def afterLastDotChars (cs : List Char) : List Char :=
  (cs.reverse.takeWhile (fun c => c != '.')).reverse

/-- Modelled from the spec: the substring of a key after its final dot (the
whole key when it has no dot). -/
def suffixAfterLastDot (s : String) : String :=
  String.mk (afterLastDotChars s.toList)

/-- Modelled from the spec: key reduction as "substring after the final dot". -/
def specReduce (f : Field) : Field :=
  { f with key := suffixAfterLastDot f.key }

/-- Modelled from the spec: route one field by the prefix table, storing the
reduced key except in the HTTP bucket, which keeps the full original key. -/
def specRoute (a : fieldAccumulators) (f : Field) : fieldAccumulators :=
  match routeOf f.key with
  | BucketId.log => { a with logFieldsAccum := a.logFieldsAccum ++ [specReduce f] }
  | BucketId.http => { a with httpFieldsAccum := a.httpFieldsAccum ++ [f] }
  | BucketId.event => { a with eventFieldsAccum := a.eventFieldsAccum ++ [specReduce f] }
  | BucketId.error => { a with errorFieldsAccum := a.errorFieldsAccum ++ [specReduce f] }
  | BucketId.trace => { a with traceFieldsAccum := a.traceFieldsAccum ++ [specReduce f] }
  | BucketId.labels => { a with labelsFieldsAccum := a.labelsFieldsAccum ++ [specReduce f] }

/-- Modelled from the spec: keep only the first occurrence of each key,
relative to a set of already-seen keys. -/
def dedupByKey : List String → List Field → List Field
  | _, [] => []
  | seen, f :: fs =>
    if f.key ∈ seen then dedupByKey seen fs
    else f :: dedupByKey (f.key :: seen) fs

/-- Modelled from the spec: per-entry `name=value` header rendering with
secret-named headers redacted to the placeholder. -/
def headerRenderSpec (h : Header) : List String :=
  h.map (fun e =>
    if secretEcsKeysMap.contains (goToLower e.1) then e.1 ++ "=" ++ secretPlaceholderValue
    else e.1 ++ "=" ++ String.intercalate "," e.2)

/-- Top-level keys of an encoded field list (empty on panic), used to state
ordering facts about concrete outputs. -/
def outKeys : Except String (List OutField) → List String
  | Except.ok out => out.map OutField.key
  | Except.error _ => []

/-- Decidable equality on `Except`, for evaluating concrete outputs of
`encodeFields` inside decidability-based proofs. -/
def exceptDecEq {ε α : Type} [DecidableEq ε] [DecidableEq α] : DecidableEq (Except ε α)
  | Except.error e, Except.error e' =>
    match decEq e e' with
    | isTrue h => isTrue (by rw [h])
    | isFalse h => isFalse (fun hh => by cases hh; exact h rfl)
  | Except.error _, Except.ok _ => isFalse (fun hh => by cases hh)
  | Except.ok _, Except.error _ => isFalse (fun hh => by cases hh)
  | Except.ok a, Except.ok b =>
    match decEq a b with
    | isTrue h => isTrue (by rw [h])
    | isFalse h => isFalse (fun hh => by cases hh; exact h rfl)

instance {ε α : Type} [DecidableEq ε] [DecidableEq α] : DecidableEq (Except ε α) :=
  exceptDecEq

/-! Concrete configurations used by witnesses and counterexamples. -/

/-- Minimal logger configuration: logger-identity field only. -/
def cfg0 : zapECSLogger :=
  ⟨⟨FieldLogger, "ecs_zap", none⟩, [], []⟩

/-- Configuration with one base tag and one base label. -/
def cfgC3 : zapECSLogger :=
  ⟨⟨FieldLogger, "ecs_zap", none⟩, ["t"], [⟨FieldLabelApplication, "app", none⟩]⟩

/-- Configuration whose base label key collides with a call-field key. -/
def cfgDup : zapECSLogger :=
  ⟨⟨FieldLogger, "ecs_zap", none⟩, [], [⟨"foo", "base", none⟩]⟩

/-- Like `cfgDup` but without the colliding base label. -/
def cfgNoDup : zapECSLogger :=
  ⟨⟨FieldLogger, "ecs_zap", none⟩, [], []⟩

/-- Configuration with the spec's example base tag list. -/
def cfgProd : zapECSLogger :=
  ⟨⟨FieldLogger, "ecs_zap", none⟩, ["prod"], []⟩

/-- Concrete output of `cfgDup.encodeFields` on one call field keyed `foo`:
both the colliding base label and the call field's labels-bucket entry
survive. -/
def outDup : List OutField :=
  [OutField.plain ⟨"foo", "base", none⟩,
   OutField.obj LogBaseLevelKey [⟨"logger", "ecs_zap", none⟩, ⟨"level", "info", none⟩],
   OutField.httpObj HTTPBaseLevelKey [],
   OutField.obj EventBaseLevelKey [],
   OutField.obj ErrorBaseLevelKey [],
   OutField.obj TraceBaseLevelKey [],
   OutField.obj FieldLabels [⟨"foo", "call", none⟩]]

/-- Concrete output of `cfgC3.encodeFields` on an empty call field list. -/
def outC3 : List OutField :=
  [OutField.strings FieldTags ["t"],
   OutField.plain ⟨FieldLabelApplication, "app", none⟩,
   OutField.obj LogBaseLevelKey [⟨"logger", "ecs_zap", none⟩, ⟨"level", "info", none⟩],
   OutField.httpObj HTTPBaseLevelKey [],
   OutField.obj EventBaseLevelKey [],
   OutField.obj ErrorBaseLevelKey [],
   OutField.obj TraceBaseLevelKey [],
   OutField.obj FieldLabels []]

/-- One-field step of the classification loop, factored out of
`processFields` for proofs: `none` is the panic of the failed tags type
assertion, `some` carries the updated tag set and accumulators. -/
def stepField (f : Field) (tags : List String) (acc : fieldAccumulators) :
    Option (List String × fieldAccumulators) :=
  if IsECSFieldName f.key then
    if f.key = FieldTags then
      match f.payload with
      | none => some (tags, acc)
      | some (Payload.strList ts) => some (tags ++ ts, acc)
      | some _ => none
    else some (tags, acc.appendField f)
  else some (tags, acc.appendField f)

/-! Helper lemmas: `strings.Split(key, ".")` last element versus the spec's
"substring after the final dot". -/

theorem takeWhile_append_of_all {α : Type} (p : α → Bool) (xs ys : List α)
    (h : ∀ x ∈ xs, p x = true) :
    List.takeWhile p (xs ++ ys) = xs ++ List.takeWhile p ys := by
  induction xs with
  | nil => simp
  | cons a xs ih =>
    have ha : p a = true := h a (List.mem_cons_self a xs)
    simp [List.takeWhile_cons, ha, ih (fun x hx => h x (List.mem_cons_of_mem a hx))]

theorem takeWhile_append_of_mem {α : Type} (p : α → Bool) (xs ys : List α) (x : α)
    (hx : x ∈ xs) (hp : p x = false) :
    List.takeWhile p (xs ++ ys) = List.takeWhile p xs := by
  induction xs with
  | nil => cases hx
  | cons a xs ih =>
    by_cases ha : p a = true
    · have hxs : x ∈ xs := by
        rcases List.mem_cons.mp hx with h1 | h1
        · rw [h1] at hp; rw [hp] at ha; cases ha
        · exact h1
      simp [List.takeWhile_cons, ha, ih hxs]
    · have ha' : p a = false := by simpa using ha
      simp [List.takeWhile_cons, ha']

theorem afterLastDotChars_of_not_mem (cs : List Char) (h : '.' ∉ cs) :
    afterLastDotChars cs = cs := by
  unfold afterLastDotChars
  have : List.takeWhile (fun c => c != '.') cs.reverse = cs.reverse := by
    have := takeWhile_append_of_all (fun c => c != '.') cs.reverse []
      (fun x hx => by
        have hxs : x ∈ cs := List.mem_reverse.mp hx
        have hne : x ≠ '.' := fun he => h (he ▸ hxs)
        simpa using hne)
    simpa using this
  rw [this, List.reverse_reverse]

theorem afterLastDotChars_dot_cons (cs : List Char) :
    afterLastDotChars ('.' :: cs) = if '.' ∈ cs then afterLastDotChars cs else cs := by
  unfold afterLastDotChars
  simp only [List.reverse_cons]
  by_cases h : '.' ∈ cs
  · rw [takeWhile_append_of_mem _ _ _ '.' (List.mem_reverse.mpr h) (by simp), if_pos h]
  · rw [takeWhile_append_of_all _ _ _
      (fun x hx => by
        have hxs : x ∈ cs := List.mem_reverse.mp hx
        have hne : x ≠ '.' := fun he => h (he ▸ hxs)
        simpa using hne), if_neg h]
    simp

theorem afterLastDotChars_cons (c : Char) (cs : List Char) (hc : c ≠ '.') :
    afterLastDotChars (c :: cs) = if '.' ∈ cs then afterLastDotChars cs else c :: cs := by
  unfold afterLastDotChars
  simp only [List.reverse_cons]
  by_cases h : '.' ∈ cs
  · rw [takeWhile_append_of_mem _ _ _ '.' (List.mem_reverse.mpr h) (by simp), if_pos h]
  · rw [takeWhile_append_of_all _ _ _
      (fun x hx => by
        have hxs : x ∈ cs := List.mem_reverse.mp hx
        have hne : x ≠ '.' := fun he => h (he ▸ hxs)
        simpa using hne), if_neg h]
    simp [hc]

theorem splitOnDotAux_map_getLastD (cs : List Char) :
    ∀ (acc : List Char) (d : String),
      ((splitOnDotAux cs acc).map String.mk).getLastD d
        = String.mk (if '.' ∈ cs then afterLastDotChars cs else acc.reverse ++ cs) := by
  induction cs with
  | nil => intro acc d; simp [splitOnDotAux]
  | cons c cs ih =>
    intro acc d
    by_cases hc : c = '.'
    · subst hc
      simp only [splitOnDotAux, eq_self_iff_true, if_true, List.map_cons, List.getLastD_cons]
      rw [ih [] (String.mk acc.reverse)]
      rw [if_pos (List.mem_cons_self '.' cs), afterLastDotChars_dot_cons]
      by_cases h : '.' ∈ cs <;> simp [h]
    · simp only [splitOnDotAux, if_neg hc]
      rw [ih (c :: acc) d]
      have hmem : ('.' ∈ c :: cs) ↔ ('.' ∈ cs) := by
        constructor
        · intro h
          rcases List.mem_cons.mp h with h1 | h1
          · exact absurd h1.symm hc
          · exact h1
        · exact fun h => List.mem_cons_of_mem c h
      by_cases h : '.' ∈ cs
      · rw [if_pos h, if_pos (hmem.mpr h), afterLastDotChars_cons c cs hc, if_pos h]
      · rw [if_neg h, if_neg (fun hh => h (hmem.mp hh))]
        simp

theorem reduceKey_eq_specReduce (f : Field) : reduceKey f = specReduce f := by
  have hkey : (goSplitDots f.key).getLastD "" = suffixAfterLastDot f.key := by
    unfold goSplitDots suffixAfterLastDot
    rw [show ("" : String) = String.mk [] from rfl, splitOnDotAux_map_getLastD]
    by_cases h : '.' ∈ f.key.toList
    · rw [if_pos h]
    · rw [if_neg h, afterLastDotChars_of_not_mem _ h]
      simp
  unfold reduceKey specReduce
  rw [hkey]

/-! Helper lemmas about the classification loop. -/

theorem processFields_cons_mem (f : Field) (rest : List Field)
    (seen tags : List String) (acc : fieldAccumulators) (h : f.key ∈ seen) :
    processFields (f :: rest) seen tags acc = processFields rest seen tags acc := by
  simp [processFields, h]

theorem processFields_cons_not_mem (f : Field) (rest : List Field)
    (seen tags : List String) (acc : fieldAccumulators) (h : f.key ∉ seen) :
    processFields (f :: rest) seen tags acc =
      (match stepField f tags acc with
       | none => Except.error interfaceConversionPanic
       | some (tags2, acc2) => processFields rest (f.key :: seen) tags2 acc2) := by
  simp only [processFields, if_neg h, stepField]
  by_cases hecs : IsECSFieldName f.key = true
  · simp only [if_pos hecs]
    by_cases htag : f.key = FieldTags
    · simp only [if_pos htag]
      cases hp : f.payload with
      | none => rfl
      | some p => cases p <;> rfl
    · simp only [if_neg htag]
  · simp only [if_neg hecs]

theorem processFields_dedup (fs : List Field) :
    ∀ (seen tags : List String) (acc : fieldAccumulators),
      processFields fs seen tags acc = processFields (dedupByKey seen fs) seen tags acc := by
  induction fs with
  | nil => intro seen tags acc; rfl
  | cons f fs ih =>
    intro seen tags acc
    by_cases h : f.key ∈ seen
    · rw [processFields_cons_mem f fs seen tags acc h]
      have hd : dedupByKey seen (f :: fs) = dedupByKey seen fs := by simp [dedupByKey, h]
      rw [hd]
      exact ih seen tags acc
    · have hd : dedupByKey seen (f :: fs) = f :: dedupByKey (f.key :: seen) fs := by
        simp [dedupByKey, h]
      rw [hd, processFields_cons_not_mem f fs seen tags acc h,
          processFields_cons_not_mem f (dedupByKey (f.key :: seen) fs) seen tags acc h]
      cases hs : stepField f tags acc with
      | none => rfl
      | some ta =>
        cases ta with
        | mk tags2 acc2 => exact ih (f.key :: seen) tags2 acc2

theorem processFields_skip_dup (pre : List Field) :
    ∀ (g : Field) (post : List Field) (seen tags : List String) (acc : fieldAccumulators),
      (g.key ∈ seen ∨ g.key ∈ pre.map Field.key) →
      processFields (pre ++ g :: post) seen tags acc
        = processFields (pre ++ post) seen tags acc := by
  induction pre with
  | nil =>
    intro g post seen tags acc h
    have hg : g.key ∈ seen := by
      rcases h with h | h
      · exact h
      · simp at h
    simpa using processFields_cons_mem g post seen tags acc hg
  | cons p pre ih =>
    intro g post seen tags acc h
    by_cases hp : p.key ∈ seen
    · rw [List.cons_append, List.cons_append, processFields_cons_mem p _ seen tags acc hp,
          processFields_cons_mem p _ seen tags acc hp]
      apply ih
      rcases h with h | h
      · exact Or.inl h
      · rw [List.map_cons] at h
        rcases List.mem_cons.mp h with h1 | h1
        · exact Or.inl (by rw [h1]; exact hp)
        · exact Or.inr h1
    · rw [List.cons_append, List.cons_append,
          processFields_cons_not_mem p _ seen tags acc hp,
          processFields_cons_not_mem p _ seen tags acc hp]
      cases hs : stepField p tags acc with
      | none => rfl
      | some ta =>
        cases ta with
        | mk tags2 acc2 =>
          apply ih
          rcases h with h | h
          · exact Or.inl (List.mem_cons_of_mem _ h)
          · rw [List.map_cons] at h
            rcases List.mem_cons.mp h with h1 | h1
            · exact Or.inl (by rw [h1]; exact List.mem_cons_self p.key seen)
            · exact Or.inr h1

theorem stepField_of_ne_tags (f : Field) (tags : List String) (acc : fieldAccumulators)
    (h : f.key ≠ FieldTags) :
    stepField f tags acc = some (tags, acc.appendField f) := by
  unfold stepField
  by_cases hecs : IsECSFieldName f.key = true
  · simp [hecs, h]
  · simp [hecs]

theorem processFields_tags_seen (fs : List Field) :
    ∀ (seen tags : List String) (acc : fieldAccumulators), FieldTags ∈ seen →
      ∃ acc2, processFields fs seen tags acc = Except.ok (tags, acc2) := by
  induction fs with
  | nil => intro seen tags acc _; exact ⟨acc, rfl⟩
  | cons f fs ih =>
    intro seen tags acc h
    by_cases hf : f.key ∈ seen
    · rw [processFields_cons_mem f fs seen tags acc hf]
      exact ih seen tags acc h
    · have hne : f.key ≠ FieldTags := fun he => hf (by rw [he]; exact h)
      rw [processFields_cons_not_mem f fs seen tags acc hf, stepField_of_ne_tags f tags acc hne]
      exact ih (f.key :: seen) tags (acc.appendField f) (List.mem_cons_of_mem _ h)

theorem processFields_no_tags_pre (pre : List Field) :
    ∀ (rest : List Field) (seen tags : List String) (acc : fieldAccumulators),
      (∀ f ∈ pre, f.key ≠ FieldTags) → FieldTags ∉ seen →
      ∃ seen2 acc2, processFields (pre ++ rest) seen tags acc
          = processFields rest seen2 tags acc2 ∧ FieldTags ∉ seen2 := by
  induction pre with
  | nil => intro rest seen tags acc _ hseen; exact ⟨seen, acc, rfl, hseen⟩
  | cons p pre ih =>
    intro rest seen tags acc hpre hseen
    have hpk : p.key ≠ FieldTags := hpre p (List.mem_cons_self p pre)
    have hpre2 : ∀ f ∈ pre, f.key ≠ FieldTags := fun f hf => hpre f (List.mem_cons_of_mem p hf)
    by_cases hp : p.key ∈ seen
    · rw [List.cons_append, processFields_cons_mem p _ seen tags acc hp]
      exact ih rest seen tags acc hpre2 hseen
    · rw [List.cons_append, processFields_cons_not_mem p _ seen tags acc hp,
          stepField_of_ne_tags p tags acc hpk]
      have hseen2 : FieldTags ∉ (p.key :: seen) := by
        intro hmem
        rcases List.mem_cons.mp hmem with h1 | h1
        · exact hpk h1.symm
        · exact hseen h1
      exact ih rest (p.key :: seen) tags (acc.appendField p) hpre2 hseen2

theorem encodeFields_ok_shape (l : zapECSLogger) (fields : List Field) (lvl : Level)
    (out : List OutField) (h : l.encodeFields fields lvl = Except.ok out) :
    ∃ entryTags accums,
      processFields fields [] l.baseTags (newFieldAccumulators l.baseLabels.length lvl)
        = Except.ok (entryTags, accums) ∧
      out = (if 0 < entryTags.length then [OutField.strings FieldTags entryTags] else [])
        ++ l.baseLabels.map OutField.plain
        ++ accums.emitLogFields l.baseLoggerField := by
  unfold zapECSLogger.encodeFields at h
  cases hp : processFields fields [] l.baseTags (newFieldAccumulators l.baseLabels.length lvl) with
  | error e => rw [hp] at h; cases h
  | ok ta =>
    cases ta with
    | mk entryTags accums =>
      rw [hp] at h
      refine ⟨entryTags, accums, rfl, ?_⟩
      injection h with h2
      exact h2.symm

/-! Claim theorems. -/

/-- C1, counterexample. The claim states that a `tags` field carrying a
non-nil payload that is not a string list is skipped with no error and the
log call completes; on the code, the type assertion
`field.Interface.([]string)` panics, so the call does not complete
(`isOk = false` refutes completion at this concrete input). -/
theorem C1_counterexample :
    (cfg0.encodeFields [⟨FieldTags, "", some (Payload.anyVal "42")⟩] Level.infoLvl).isOk
      = false := by
  decide

/-- C1, amended. For a log call whose field list is a single `tags` field:
a nil payload is skipped, no error occurs and the call completes; a non-nil
payload that is not a string list makes the failed type assertion panic and
the call does not complete. -/
theorem C1_tags_payload (l : zapECSLogger) (lvl : Level) (s : String) (p : Payload)
    (h : p.isStrList = false) :
    l.encodeFields [⟨FieldTags, s, some p⟩] lvl = Except.error interfaceConversionPanic ∧
    (l.encodeFields [⟨FieldTags, s, none⟩] lvl).isOk = true := by
  constructor
  · have hstep : stepField ⟨FieldTags, s, some p⟩ l.baseTags
        (newFieldAccumulators l.baseLabels.length lvl) = none := by
      cases p with
      | strList ts => simp [Payload.isStrList] at h
      | headerList hs => rfl
      | anyVal v => rfl
    have hp1 : processFields [⟨FieldTags, s, some p⟩] [] l.baseTags
        (newFieldAccumulators l.baseLabels.length lvl)
          = Except.error interfaceConversionPanic := by
      rw [processFields_cons_not_mem _ _ _ _ _ (by simp), hstep]
    unfold zapECSLogger.encodeFields
    rw [hp1]
  · have hp2 : processFields [⟨FieldTags, s, none⟩] [] l.baseTags
        (newFieldAccumulators l.baseLabels.length lvl)
          = Except.ok (l.baseTags, newFieldAccumulators l.baseLabels.length lvl) := by
      rw [processFields_cons_not_mem _ _ _ _ _ (by simp)]
      rfl
    unfold zapECSLogger.encodeFields
    rw [hp2]
    rfl

/-- C1, witness for `C1_tags_payload` at a concrete mismatched payload. -/
theorem C1_witness :
    (Payload.anyVal "42").isStrList = false ∧
    (cfg0.encodeFields [⟨FieldTags, "", some (Payload.anyVal "42")⟩] Level.infoLvl
        = Except.error interfaceConversionPanic ∧
      (cfg0.encodeFields [⟨FieldTags, "", none⟩] Level.infoLvl).isOk = true) :=
  ⟨rfl, C1_tags_payload cfg0 Level.infoLvl "" (Payload.anyVal "42") rfl⟩

/-- C2, counterexample. The claim states call fields and base labels are
deduplicated jointly by key with later duplicates discarded; then a base
label whose key duplicates a call field contributes nothing, and adding such
a base label could not change the output. On the code, base labels are
appended verbatim with no deduplication, so the outputs differ. -/
theorem C2_counterexample :
    cfgDup.encodeFields [⟨"foo", "call", none⟩] Level.infoLvl
      ≠ cfgNoDup.encodeFields [⟨"foo", "call", none⟩] Level.infoLvl := by
  decide

/-- C2, amended. Only the caller-supplied fields are deduplicated by key
(first occurrence in call order wins, later duplicates are discarded); the
base label fields are not part of the deduplication and always appear
verbatim, as a contiguous run, in the output. -/
theorem C2_call_field_dedup (l : zapECSLogger) (fields : List Field) (lvl : Level) :
    l.encodeFields fields lvl = l.encodeFields (dedupByKey [] fields) lvl ∧
    ∀ out, l.encodeFields fields lvl = Except.ok out →
      List.IsInfix (l.baseLabels.map OutField.plain) out := by
  constructor
  · unfold zapECSLogger.encodeFields
    rw [processFields_dedup fields [] l.baseTags
      (newFieldAccumulators l.baseLabels.length lvl)]
  · intro out h
    obtain ⟨tg, acc, _, hout⟩ := encodeFields_ok_shape l fields lvl out h
    rw [hout]
    exact ⟨(if 0 < tg.length then [OutField.strings FieldTags tg] else []),
      acc.emitLogFields l.baseLoggerField, rfl⟩

/-- C2, witness for `C2_call_field_dedup` at a duplicate-key configuration. -/
theorem C2_witness :
    (cfgDup.encodeFields [⟨"foo", "call", none⟩] Level.infoLvl
      = cfgDup.encodeFields (dedupByKey [] [⟨"foo", "call", none⟩]) Level.infoLvl) ∧
    List.IsInfix (cfgDup.baseLabels.map OutField.plain) outDup :=
  ⟨(C2_call_field_dedup cfgDup [⟨"foo", "call", none⟩] Level.infoLvl).1,
   (C2_call_field_dedup cfgDup [⟨"foo", "call", none⟩] Level.infoLvl).2 outDup (by decide)⟩

/-- C3, counterexample. The claim puts the labels bucket before the log
bucket; on the code the labels bucket is emitted last, after the trace
bucket, as the concrete key order shows. -/
theorem C3_counterexample :
    outKeys (cfgC3.encodeFields [] Level.infoLvl)
      = ["tags", "application", "log", "http", "event", "error", "trace", "labels"] ∧
    (["tags", "application", "log", "http", "event", "error", "trace", "labels"] : List String)
      ≠ ["tags", "application", "labels", "log", "http", "event", "error", "trace"] :=
  ⟨rfl, by decide⟩

/-- C3, amended. On every completed log call the final field list is, in
this fixed order: the merged tag list as one multi-valued field (present
only when non-empty), then all base label fields verbatim, then the log,
HTTP, event, error, trace and labels buckets, each as one nested-object
field under the fixed top-level keys `log`, `http`, `event`, `error`,
`trace`, `labels` (the labels bucket last, not first). -/
theorem C3_emission_order (l : zapECSLogger) (fields : List Field) (lvl : Level)
    (out : List OutField) (h : l.encodeFields fields lvl = Except.ok out) :
    ∃ entryTags logB httpB eventB errorB traceB labelsB,
      out = (if entryTags = ([] : List String) then []
              else [OutField.strings FieldTags entryTags])
        ++ l.baseLabels.map OutField.plain
        ++ [OutField.obj LogBaseLevelKey logB,
            OutField.httpObj HTTPBaseLevelKey httpB,
            OutField.obj EventBaseLevelKey eventB,
            OutField.obj ErrorBaseLevelKey errorB,
            OutField.obj TraceBaseLevelKey traceB,
            OutField.obj FieldLabels labelsB] := by
  obtain ⟨tg, acc, _, hout⟩ := encodeFields_ok_shape l fields lvl out h
  have hguard : (if 0 < tg.length then [OutField.strings FieldTags tg] else [])
      = (if tg = ([] : List String) then [] else [OutField.strings FieldTags tg]) := by
    cases tg <;> simp
  refine ⟨tg,
    acc.logFieldsAccum ++ [reduceKey l.baseLoggerField, reduceKey ⟨FieldLogLevel, acc.l.toString, none⟩],
    acc.httpFieldsAccum, acc.eventFieldsAccum, acc.errorFieldsAccum, acc.traceFieldsAccum,
    acc.labelsFieldsAccum, ?_⟩
  rw [hout, hguard]
  rfl

/-- C3, witness for `C3_emission_order` at a concrete configuration. -/
theorem C3_witness :
    ∃ entryTags logB httpB eventB errorB traceB labelsB,
      outC3 = (if entryTags = ([] : List String) then []
              else [OutField.strings FieldTags entryTags])
        ++ cfgC3.baseLabels.map OutField.plain
        ++ [OutField.obj LogBaseLevelKey logB,
            OutField.httpObj HTTPBaseLevelKey httpB,
            OutField.obj EventBaseLevelKey eventB,
            OutField.obj ErrorBaseLevelKey errorB,
            OutField.obj TraceBaseLevelKey traceB,
            OutField.obj FieldLabels labelsB] :=
  C3_emission_order cfgC3 [] Level.infoLvl outC3 rfl

/-- C4, counterexample. The claim states that an HTTP bucket holding only
`http.request.method = "POST"` serializes exactly to a document with one
`request` object holding one `method` key and no `body` key; the code's
serialization differs from that document. -/
theorem C4_counterexample :
    HTTPObjectMarshalJSON [⟨FieldHTTPRequestMethod, "POST", none⟩]
      ≠ "\x7b\"request\":\x7b\"method\":\"POST\"\x7d\x7d" := by
  decide

/-- C4, amended. For an HTTP bucket holding only `http.request.method` with
string value `POST`, the serialized document is
`\x7b"request":\x7b"body":\x7b\x7d,"method":"POST"\x7d\x7d`: the `response`
node is never allocated and is omitted, but `requestNilGuard` allocates the
`body` node together with the `request` node, and an allocated (non-nil)
body pointer is emitted as an empty object rather than omitted. -/
theorem C4_http_body_allocated :
    HTTPObjectMarshalJSON [⟨FieldHTTPRequestMethod, "POST", none⟩]
        = "\x7b\"request\":\x7b\"body\":\x7b\x7d,\"method\":\"POST\"\x7d\x7d" ∧
    (HTTPECSMapper ⟨FieldHTTPRequestMethod, "POST", none⟩ ⟨none, none⟩).Response = none :=
  ⟨rfl, rfl⟩

/-- C5, counterexample. The claim states a field keyed `custom.x` lands in
the labels bucket under its full original key; on the code `reduceKey` is
applied, so it is stored under `x`. -/
theorem C5_counterexample :
    ((newFieldAccumulators 0 Level.infoLvl).appendField
        ⟨"custom.x", "v", none⟩).labelsFieldsAccum.map Field.key = ["x"] ∧
    ("x" : String) ≠ "custom.x" :=
  ⟨rfl, by decide⟩

/-- C5, amended. A field whose key matches none of the five recognized
dotted prefixes is appended to the generic/labels bucket with its key
reduced to the substring after the final dot (for `custom.x`, the stored
key is `x`, not the full original key). -/
theorem C5_unrecognized_to_labels (a : fieldAccumulators) (f : Field)
    (h : (hasPfx f.key LogPfx || hasPfx f.key HTTPPfx || hasPfx f.key EventPfx
       || hasPfx f.key ErrorPfx || hasPfx f.key TracePfx) = false) :
    a.appendField f
        = { a with labelsFieldsAccum := a.labelsFieldsAccum ++ [reduceKey f] } ∧
    (reduceKey f).key = suffixAfterLastDot f.key := by
  simp only [Bool.or_eq_false_iff] at h
  obtain ⟨⟨⟨⟨h1, h2⟩, h3⟩, h4⟩, h5⟩ := h
  constructor
  · unfold fieldAccumulators.appendField
    simp [h1, h2, h3, h4, h5]
  · rw [reduceKey_eq_specReduce f]
    rfl

/-- C5, witness for `C5_unrecognized_to_labels` at the spec's example key. -/
theorem C5_witness :
    ((hasPfx "custom.x" LogPfx || hasPfx "custom.x" HTTPPfx || hasPfx "custom.x" EventPfx
       || hasPfx "custom.x" ErrorPfx || hasPfx "custom.x" TracePfx) = false) ∧
    ((newFieldAccumulators 0 Level.infoLvl).appendField ⟨"custom.x", "v", none⟩
        = { newFieldAccumulators 0 Level.infoLvl with
            labelsFieldsAccum := (newFieldAccumulators 0 Level.infoLvl).labelsFieldsAccum
              ++ [reduceKey ⟨"custom.x", "v", none⟩] } ∧
      (reduceKey (⟨"custom.x", "v", none⟩ : Field)).key = suffixAfterLastDot "custom.x") :=
  ⟨by decide,
   C5_unrecognized_to_labels (newFieldAccumulators 0 Level.infoLvl)
     ⟨"custom.x", "v", none⟩ (by decide)⟩

/-- C6, confirmed. Field routing refines the spec's table: the key is
tested against the five recognized dotted prefixes in the fixed priority
order log, http, event, error, trace; the first match determines the
bucket; matched fields are stored with the key reduced to the substring
after the final dot, except that HTTP-bucket fields keep the full original
key. -/
theorem C6_routing_refines_table (a : fieldAccumulators) (f : Field) :
    a.appendField f = specRoute a f := by
  have hred := reduceKey_eq_specReduce f
  unfold fieldAccumulators.appendField specRoute routeOf prefixTable
  by_cases h1 : hasPfx f.key LogPfx = true
  · simp [List.find?_cons, h1, hred]
  · by_cases h2 : hasPfx f.key HTTPPfx = true
    · simp [List.find?_cons, h1, h2]
    · by_cases h3 : hasPfx f.key EventPfx = true
      · simp [List.find?_cons, h1, h2, h3, hred]
      · by_cases h4 : hasPfx f.key ErrorPfx = true
        · simp [List.find?_cons, h1, h2, h3, h4, hred]
        · by_cases h5 : hasPfx f.key TracePfx = true
          · simp [List.find?_cons, h1, h2, h3, h4, h5, hred]
          · simp [List.find?_cons, h1, h2, h3, h4, h5, hred]

/-- C7, confirmed. Any caller-supplied field whose key already occurred in
an earlier caller-supplied field has no effect on the output: the first
occurrence wins, and logging the same field twice equals logging it once. -/
theorem C7_first_occurrence_wins (l : zapECSLogger) (lvl : Level) (pre : List Field)
    (g : Field) (post : List Field) (h : g.key ∈ pre.map Field.key) :
    l.encodeFields (pre ++ g :: post) lvl = l.encodeFields (pre ++ post) lvl := by
  unfold zapECSLogger.encodeFields
  rw [processFields_skip_dup pre g post [] l.baseTags
    (newFieldAccumulators l.baseLabels.length lvl) (Or.inr h)]

/-- C7, witness for `C7_first_occurrence_wins`: logging the same field
twice equals logging it once. -/
theorem C7_witness :
    (("k" : String) ∈ ([⟨"k", "v1", none⟩] : List Field).map Field.key) ∧
    cfg0.encodeFields [⟨"k", "v1", none⟩, ⟨"k", "v1", none⟩] Level.infoLvl
      = cfg0.encodeFields [⟨"k", "v1", none⟩] Level.infoLvl :=
  ⟨by decide,
   C7_first_occurrence_wins cfg0 Level.infoLvl [⟨"k", "v1", none⟩]
     ⟨"k", "v1", none⟩ [] (by decide)⟩

/-- C8, confirmed. For a log call whose tags field follows only non-tag
fields, the call completes and the merged tag output lists the process-wide
base tags first, in configured order, followed by the call-time tag field's
values in their given order, with duplicate values preserved (the merge is
list concatenation). -/
theorem C8_tag_merging (l : zapECSLogger) (lvl : Level) (pre : List Field)
    (ts : List String) (post : List Field) (hpre : ∀ f ∈ pre, f.key ≠ FieldTags) :
    ∃ out, l.encodeFields (pre ++ Tags ts :: post) lvl = Except.ok out ∧
      (l.baseTags ++ ts ≠ [] →
        out.head? = some (OutField.strings FieldTags (l.baseTags ++ ts))) := by
  obtain ⟨seen2, acc2, heq, hnot⟩ := processFields_no_tags_pre pre (Tags ts :: post) []
    l.baseTags (newFieldAccumulators l.baseLabels.length lvl) hpre (by simp)
  obtain ⟨acc3, h3⟩ := processFields_tags_seen post ((Tags ts).key :: seen2)
    (l.baseTags ++ ts) acc2 (List.mem_cons_self _ _)
  have hall : processFields (pre ++ Tags ts :: post) [] l.baseTags
      (newFieldAccumulators l.baseLabels.length lvl)
        = Except.ok (l.baseTags ++ ts, acc3) := by
    rw [heq, processFields_cons_not_mem (Tags ts) post seen2 l.baseTags acc2 hnot]
    exact h3
  refine ⟨(if 0 < (l.baseTags ++ ts).length
        then [OutField.strings FieldTags (l.baseTags ++ ts)] else [])
      ++ l.baseLabels.map OutField.plain ++ acc3.emitLogFields l.baseLoggerField, ?_, ?_⟩
  · unfold zapECSLogger.encodeFields
    rw [hall]
  · intro hne
    rw [if_pos (List.length_pos.mpr hne)]
    rfl

/-- C8, witness for `C8_tag_merging` at the spec's example: base tags
`prod` plus call tags `a`, `b` merge to `prod`, `a`, `b`. -/
theorem C8_witness :
    ∃ out, cfgProd.encodeFields [Tags ["a", "b"]] Level.infoLvl = Except.ok out ∧
      out.head? = some (OutField.strings FieldTags ["prod", "a", "b"]) := by
  obtain ⟨out, h1, h2⟩ := C8_tag_merging cfgProd Level.infoLvl [] ["a", "b"] [] (by simp)
  exact ⟨out, h1, h2 (by decide)⟩

/-- Joining a single string with a separator returns the string. -/
theorem intercalate_singleton (sep x : String) : String.intercalate sep [x] = x := by
  rfl

/-- Inner rendering of one header map agrees with the spec's per-entry
rendering: secret-named entries render as `name=SECRET`, others as
`name=` followed by the comma-joined values. -/
theorem sanitizeHeaderEntries_snd (h : Header) :
    (sanitizeHeaderEntries h).2 = headerRenderSpec h := by
  induction h with
  | nil => rfl
  | cons e rest ih =>
    cases e with
    | mk k v =>
      simp only [sanitizeHeaderEntries, headerRenderSpec, List.map_cons]
      by_cases hk : secretEcsKeysMap.contains (goToLower k) = true
      · simp only [hk, if_true, intercalate_singleton]
        rw [ih]
        rfl
      · simp only [Bool.not_eq_true] at hk
        simp only [hk, if_false, Bool.false_eq_true]
        rw [ih]
        rfl

/-- Inner mutation of one header map agrees with the spec: secret-named
entries are overwritten with the placeholder list, all others unchanged. -/
theorem sanitizeHeaderEntries_fst (h : Header) :
    (sanitizeHeaderEntries h).1 = h.map (fun e =>
      (e.1, if secretEcsKeysMap.contains (goToLower e.1) then [secretPlaceholderValue]
            else e.2)) := by
  induction h with
  | nil => rfl
  | cons e rest ih =>
    cases e with
    | mk k v =>
      simp only [sanitizeHeaderEntries, List.map_cons]
      rw [ih]

/-- C9, confirmed. For every header list, the rendered strings are exactly:
per entry in order, `name=SECRET` when the lower-cased name is in the fixed
secret set, else `name=` followed by the unchanged comma-joined value; in
particular `Authorization`/`secret123` renders as `Authorization=SECRET`
and `X-Trace` passes through unredacted. -/
theorem C9_header_redaction (hs : List Header) :
    (SanitizeHeaders hs).2 = (hs.map headerRenderSpec).flatten ∧
    (SanitizeHeaders [[("Authorization", ["secret123"])], [("X-Trace", ["v"])]]).2
      = ["Authorization=SECRET", "X-Trace=v"] := by
  refine ⟨?_, rfl⟩
  induction hs with
  | nil => rfl
  | cons h rest ih =>
    simp only [SanitizeHeaders, List.map_cons, List.flatten_cons]
    rw [ih, sanitizeHeaderEntries_snd]

/-- C10, confirmed. `SanitizeHeaders` mutates its argument in place
(modelled by the returned post-state): every entry whose lower-cased name
is in the secret set has its value slice overwritten with the placeholder
list, and every other entry is left unchanged, preserving keys and order. -/
theorem C10_sanitize_mutates_argument (hs : List Header) :
    (SanitizeHeaders hs).1 = hs.map (fun h => h.map (fun e =>
      (e.1, if secretEcsKeysMap.contains (goToLower e.1) then [secretPlaceholderValue]
            else e.2))) := by
  induction hs with
  | nil => rfl
  | cons h rest ih =>
    simp only [SanitizeHeaders, List.map_cons]
    rw [ih, sanitizeHeaderEntries_fst]

end ZapEcs
